import Mathlib

/-!
A shallow embedding of `src/statemanager.js` (tbknl/jsStateManager).

The source defines a `State` tree node class (name, optional context with
optional `enter`/`exit` callbacks and an optional `defaultSubstate` name,
and a substate map) and a `StateManager` (a `__WORLD__` root node plus a
mutable `_currentStateDescr` array) with `registerState`, `changeState`
and `currentState`.

Modelling choices, all traced to the JavaScript semantics of the source:
* `undefined` string values are modelled by `Option String` (`JSName`);
  `registerState('')` builds a node whose name is `undefined`
  (`stateDescr[stateDepth - 1]` is out of bounds).
* JavaScript object property keys are strings; `undefined` used as a key
  (`substateName in this._substates`) is coerced to the string
  `"undefined"`; `jsKey` models that coercion.
* `Array.prototype.join` renders `undefined` elements as the empty string.
* Thrown strings (`'SubstateAlreadyExists'`, `'UnknownSubstate'`) become
  the error type `Err`.
* Callback invocations are recorded in an event trace: `State.enter()`
  invokes the context's `enter` function only when the context supplies
  one, so an event is emitted exactly when the corresponding callback is
  invoked.
* Mutation is modelled by state passing: `changeState` returns the new
  manager, the trace, and `none` or the thrown error.  Since the source
  mutates `_currentStateDescr` only after the exit and enter walks have
  completed, a throw leaves the returned manager equal to the input one.
-/

namespace SM

/-- JavaScript string-or-undefined: `none` models `undefined`. -/
abbrev JSName := Option String

/-- JavaScript property-key coercion: `undefined` used as an object key is
the string `"undefined"`; strings are used as-is. -/
def jsKey : JSName → String
  | some s => s
  | none => "undefined"

/-- Context capability object: whether an `enter` function is supplied,
whether an `exit` function is supplied, and the optional `defaultSubstate`
name (`none` models an absent/undefined field). -/
structure Ctx where
  hasEnter : Bool
  hasExit : Bool
  defaultSubstate : Option String
  deriving DecidableEq, Repr

/-- Observable callback invocation: the context's `enter` or `exit`
function called with the node's `_name`. -/
inductive Event where
  | enter : JSName → Event
  | exit : JSName → Event
  deriving DecidableEq, Repr

/-- The strings thrown by the source: `'SubstateAlreadyExists'` (from
`State.addSubstate`) and `'UnknownSubstate'` (from `State.getSubstate`). -/
inductive Err where
  | substateAlreadyExists : Err
  | unknownSubstate : Err
  deriving DecidableEq, Repr

/-- A `State` node: `_name`, `_context`, and the `_substates` object
modelled as an association list from property key to node, in insertion
order. -/
inductive State where
  | mk : JSName → Option Ctx → List (String × State) → State
  deriving Repr

/-- The `_name` field of a node. -/
def State.name : State → JSName
  | .mk n _ _ => n

/-- The `_context` field of a node. -/
def State.context : State → Option Ctx
  | .mk _ c _ => c

/-- The `_substates` object of a node. -/
def State.substates : State → List (String × State)
  | .mk _ _ l => l

/-- Source `State.prototype.getName`. -/
def State.getName (s : State) : JSName := s.name

/-- First-match association-list lookup: JavaScript `key in obj` /
`obj[key]` on an object with string keys. -/
def assocFind (key : String) : List (String × State) → Option State
  | [] => none
  | (k, st) :: rest => if k = key then some st else assocFind key rest

/-- Replace the value stored at `key` (first match) by `v`, keeping every
other entry: JavaScript in-place mutation of one property, seen from the
parent. -/
def assocReplace (key : String) (v : State) : List (String × State) → List (String × State)
  | [] => []
  | (k, st) :: rest => if k = key then (k, v) :: rest else (k, st) :: assocReplace key v rest

/-- Source `State.prototype.addSubstate`: throws `'SubstateAlreadyExists'`
when a property with the new node's (coerced) name exists, else stores the
node under that key. -/
def State.addSubstate (s : State) (sub : State) : Except Err State :=
  match assocFind (jsKey sub.name) s.substates with
  | some _ => .error .substateAlreadyExists
  | none => .ok (.mk s.name s.context (s.substates ++ [(jsKey sub.name, sub)]))

/-- Source `State.prototype.getSubstate`: returns the substate stored
under the (coerced) key, or throws `'UnknownSubstate'`. -/
def State.getSubstate (s : State) (n : JSName) : Except Err State :=
  match assocFind (jsKey n) s.substates with
  | some st => .ok st
  | none => .error .unknownSubstate

/-- Source `State.prototype.getDefaultSubstate`:
`name = this._context && this._context.defaultSubstate`; when `name` is
truthy (present and non-empty) and a property of `_substates`, return that
substate, else `null`. -/
def State.getDefaultSubstate (s : State) : Option State :=
  match s.context with
  | none => none
  | some ctx =>
    match ctx.defaultSubstate with
    | none => none
    | some n => if n = "" then none else assocFind n s.substates

/-- Events emitted by `this.enter()`: the context's `enter` callback is
invoked (with the node's name) exactly when the context supplies one. -/
def State.enterEvents (s : State) : List Event :=
  match s.context with
  | some c => if c.hasEnter then [.enter s.name] else []
  | none => []

/-- Events emitted by `this.exit()`: the context's `exit` callback is
invoked (with the node's name) exactly when the context supplies one. -/
def State.exitEvents (s : State) : List Event :=
  match s.context with
  | some c => if c.hasExit then [.exit s.name] else []
  | none => []

/-- JavaScript `String.prototype.split` with separator `'.'`, on the
character list: split at every dot; no segment merging, so `""` yields
`[""]` and `"a..b"` yields `["a", "", "b"]`. -/
def splitDotAux : List Char → List Char → List String
  | [], acc => [String.mk acc.reverse]
  | c :: rest, acc =>
    if c = '.' then String.mk acc.reverse :: splitDotAux rest []
    else splitDotAux rest (c :: acc)

/-- JavaScript `stateStr.split('.')`. -/
def splitDot (s : String) : List String := splitDotAux s.data []

/-- Source private `stateDescrFromStateStr`: `''` gives `[]`, otherwise
`stateStr.split('.')`. -/
def stateDescrFromStateStr (stateStr : String) : List String :=
  if stateStr = "" then [] else splitDot stateStr

/-- How `Array.prototype.join` renders one element: a string as itself,
`undefined` as the empty string. -/
def jsElemStr : JSName → String
  | some s => s
  | none => ""

/-- JavaScript `Array.prototype.join('.')` on a state description:
elements joined by dots, `undefined` rendered as the empty string. -/
def jsJoin : List JSName → String
  | [] => ""
  | [n] => jsElemStr n
  | n :: rest => jsElemStr n ++ "." ++ jsJoin rest

/-- The manager's state: the `__WORLD__` root node and the current state
description array. -/
structure StateManager where
  worldState : State
  currentStateDescr : List JSName
  deriving Repr

/-- A freshly constructed `new StateManager()`. -/
def initialManager : StateManager :=
  .mk (.mk (some "__WORLD__") none []) []

/-- Source private `computeChangeLevel`, with the source's two arrays as
arguments: count matching leading elements of `newStateDescr` and
`_currentStateDescr` (JavaScript `==` on two strings is string equality,
`undefined == undefined` is true, mixed is false, i.e. `Option.eq`). -/
def computeChangeLevel : List JSName → List JSName → Nat
  | n :: ns, c :: cs => if n = c then computeChangeLevel ns cs + 1 else 0
  | _, _ => 0

/-- The ancestor walk plus node construction of `registerState`: resolve
every ancestor segment with `getSubstate`, then `addSubstate` a fresh node
(name `newName`, context `ctx`, empty substates) onto the resolved parent.
Returns the updated subtree. -/
def registerWalk (st : State) (ancestors : List String) (newName : JSName) (ctx : Option Ctx) :
    Except Err State :=
  match ancestors with
  | [] => st.addSubstate (.mk newName ctx [])
  | a :: rest =>
    match st.getSubstate (some a) with
    | .error e => .error e
    | .ok child =>
      match registerWalk child rest newName ctx with
      | .error e => .error e
      | .ok child' => .ok (.mk st.name st.context (assocReplace a child' st.substates))

/-- Source `StateManager.registerState`: parse the path, walk the first
`stateDepth - 1` segments from the world root, and add a node named
`stateDescr[stateDepth - 1]` (JavaScript: `undefined` when the description
is empty) with the given context.  A throw leaves the manager unchanged
(the walk only reads, and `addSubstate` throws before storing). -/
def registerState (m : StateManager) (stateStr : String) (ctx : Option Ctx) :
    StateManager × Option Err :=
  let stateDescr := stateDescrFromStateStr stateStr
  match registerWalk m.worldState stateDescr.dropLast stateDescr.getLast? ctx with
  | .error e => (m, some e)
  | .ok w' => (.mk w' m.currentStateDescr, none)

/-- Size of a substate found by `assocFind` is below the size of the list. -/
theorem sizeOf_assocFind {key : String} {l : List (String × State)} {st : State}
    (h : assocFind key l = some st) : sizeOf st < sizeOf l := by
  induction l with
  | nil => simp [assocFind] at h
  | cons p rest ih =>
    obtain ⟨k, v⟩ := p
    by_cases hk : k = key
    · simp [assocFind, hk] at h
      subst h
      simp
      omega
    · simp [assocFind, hk] at h
      have := ih h
      simp
      omega

/-- A node's default substate is structurally smaller than the node. -/
theorem sizeOf_getDefaultSubstate {s st : State} (h : s.getDefaultSubstate = some st) :
    sizeOf st < sizeOf s := by
  obtain ⟨n, c, l⟩ := s
  simp only [State.getDefaultSubstate, State.context] at h
  match c with
  | none => simp at h
  | some ctx =>
    simp only at h
    match hd : ctx.defaultSubstate with
    | none => simp [hd] at h
    | some nm =>
      simp only [hd] at h
      by_cases he : nm = ""
      · simp [he] at h
      · simp only [he, if_neg, State.substates] at h
        have := sizeOf_assocFind (l := l) (by simpa using h)
        simp
        omega

/-- The default-substate loop at the end of `changeState`: while a default
substate exists, `enter()` it and push its name, then continue from it.
Returns the emitted events and the pushed names, in order. -/
def defaultCascade (s : State) : List Event × List JSName :=
  match h : s.getDefaultSubstate with
  | some st =>
    let p := defaultCascade st
    (st.enterEvents ++ p.1, st.getName :: p.2)
  | none => ([], [])
termination_by sizeOf s
decreasing_by exact sizeOf_getDefaultSubstate h

/-- The exit-collection walk of `changeState`: resolve each segment of
`_currentStateDescr` in turn, pushing onto `exitStates` every node whose
index is `>= changeLevel` (or every node when `forceAll`).  `i` is the
loop index. -/
def collectExitStates (st : State) (descr : List JSName) (i changeLevel : Nat)
    (forceAll : Bool) : Except Err (List State) :=
  match descr with
  | [] => .ok []
  | n :: rest =>
    match st.getSubstate n with
    | .error e => .error e
    | .ok child =>
      match collectExitStates child rest (i + 1) changeLevel forceAll with
      | .error e => .error e
      | .ok more =>
        .ok (if changeLevel ≤ i ∨ forceAll then child :: more else more)

/-- The enter walk of `changeState`: resolve each segment of
`newStateDescr` in turn, invoking `enter()` on every node whose index is
`>= changeLevel` (or every node when `forceAll`).  Events emitted before a
failing lookup are kept (callbacks already ran when the throw happens);
on success the resolved final node is returned. -/
def enterWalk (st : State) (descr : List JSName) (i changeLevel : Nat) (forceAll : Bool) :
    List Event × Except Err State :=
  match descr with
  | [] => ([], .ok st)
  | n :: rest =>
    match st.getSubstate n with
    | .error e => ([], .error e)
    | .ok child =>
      let evs := if changeLevel ≤ i ∨ forceAll then child.enterEvents else []
      let p := enterWalk child rest (i + 1) changeLevel forceAll
      (evs ++ p.1, p.2)

/-- Source `StateManager.changeState`: parse the target, compute the
change level, run the exit walk then pop-and-`exit()` the collected nodes
(deepest first), run the enter walk, assign `_currentStateDescr`, and run
the default-substate loop.  Returns the manager after the call, the event
trace, and the thrown error if any; a throw in either walk happens before
`_currentStateDescr` is reassigned, so the returned manager is the input
one (a throw while collecting exit states also precedes every `exit()`
call, so the trace is then empty). -/
def changeState (m : StateManager) (newStateStr : String) (forceAll : Bool) :
    StateManager × List Event × Option Err :=
  let newStateDescr : List JSName := (stateDescrFromStateStr newStateStr).map some
  let changeLevel := computeChangeLevel newStateDescr m.currentStateDescr
  match collectExitStates m.worldState m.currentStateDescr 0 changeLevel forceAll with
  | .error e => (m, [], some e)
  | .ok exitStates =>
    let exitEvs := exitStates.reverse.flatMap State.exitEvents
    match enterWalk m.worldState newStateDescr 0 changeLevel forceAll with
    | (enterEvs, .error e) => (m, exitEvs ++ enterEvs, some e)
    | (enterEvs, .ok finalState) =>
      let casc := defaultCascade finalState
      (.mk m.worldState (newStateDescr ++ casc.2), exitEvs ++ enterEvs ++ casc.1, none)

/-- Source `StateManager.currentState`: `_currentStateDescr.join('.')`. -/
def StateManager.currentState (m : StateManager) : String := jsJoin m.currentStateDescr

/-! Supporting notions used to state and prove the claims. -/

/-- Resolve a description against the tree, returning the node reached:
the repeated `state = state.getSubstate(descr[i])` walk both phases of
`changeState` perform. -/
def resolveFrom (st : State) (descr : List JSName) : Except Err State :=
  match descr with
  | [] => .ok st
  | n :: rest =>
    match st.getSubstate n with
    | .error e => .error e
    | .ok child => resolveFrom child rest

/-- Resolve a description against the tree, returning every node visited
below the start, in path order. -/
def pathNodes (st : State) (descr : List JSName) : Except Err (List State) :=
  match descr with
  | [] => .ok []
  | n :: rest =>
    match st.getSubstate n with
    | .error e => .error e
    | .ok child =>
      match pathNodes child rest with
      | .error e => .error e
      | .ok ns => .ok (child :: ns)

mutual

/-- Number of nodes of a tree (the root included). -/
def State.countNodes : State → Nat
  | .mk _ _ l => 1 + countNodesList l

/-- Number of nodes of a substate list. -/
def countNodesList : List (String × State) → Nat
  | [] => 0
  | (_, st) :: rest => State.countNodes st + countNodesList rest

end

mutual

/-- Height of a tree: 1 for a leaf. -/
def State.height : State → Nat
  | .mk _ _ l => 1 + heightList l

/-- Maximum height over a substate list. -/
def heightList : List (String × State) → Nat
  | [] => 0
  | (_, st) :: rest => max (State.height st) (heightList rest)

end

/-- Whether an event is an `enter` invocation. -/
def Event.isEnter : Event → Bool
  | .enter _ => true
  | .exit _ => false

/-- Whether an event is an `exit` invocation. -/
def Event.isExit : Event → Bool
  | .enter _ => false
  | .exit _ => true

/-- Build a manager by a sequence of registrations (each step keeps the
manager a thrown registration would leave unchanged). -/
def mkMgr (regs : List (String × Option Ctx)) : StateManager :=
  regs.foldl (fun m r => (registerState m r.1 r.2).1) initialManager

/-- A context supplying both callbacks and no default substate. -/
def cBoth : Ctx := ⟨true, true, none⟩

/-- Manager with `a`, `a.b`, `a.b.c`, `a.b.d` registered, all with both
callbacks. -/
def mgrABCD : StateManager :=
  mkMgr [("a", some cBoth), ("a.b", some cBoth), ("a.b.c", some cBoth), ("a.b.d", some cBoth)]

/-- `mgrABCD` after a transition to `a.b.c`. -/
def mgrAtABC : StateManager := (changeState mgrABCD "a.b.c" false).1

/-- Manager with `a`, `a.b`, `a.c`, `a.c.d` registered, all with both
callbacks. -/
def mgrACD : StateManager :=
  mkMgr [("a", some cBoth), ("a.b", some cBoth), ("a.c", some cBoth), ("a.c.d", some cBoth)]

/-- `mgrACD` after a transition to `a.b`. -/
def mgrAtAB2 : StateManager := (changeState mgrACD "a.b" false).1

/-! Change-level characterization lemmas. -/

/-- The change level never exceeds the new description's length. -/
theorem changeLevel_le_left : ∀ nd cd : List JSName, computeChangeLevel nd cd ≤ nd.length := by
  intro nd
  induction nd with
  | nil => intro cd; simp [computeChangeLevel]
  | cons n ns ih =>
    intro cd
    cases cd with
    | nil => simp [computeChangeLevel]
    | cons c cs =>
      by_cases h : n = c
      · subst h
        simp only [computeChangeLevel, if_pos rfl, List.length_cons]
        exact Nat.succ_le_succ (ih cs)
      · simp [computeChangeLevel, h]

/-- The change level never exceeds the current description's length. -/
theorem changeLevel_le_right : ∀ nd cd : List JSName, computeChangeLevel nd cd ≤ cd.length := by
  intro nd
  induction nd with
  | nil => intro cd; simp [computeChangeLevel]
  | cons n ns ih =>
    intro cd
    cases cd with
    | nil => simp [computeChangeLevel]
    | cons c cs =>
      by_cases h : n = c
      · subst h
        simp only [computeChangeLevel, if_pos rfl, List.length_cons]
        exact Nat.succ_le_succ (ih cs)
      · simp [computeChangeLevel, h]

/-- Below the change level, the two descriptions agree. -/
theorem changeLevel_agree : ∀ (nd cd : List JSName) i, i < computeChangeLevel nd cd →
    nd[i]? = cd[i]? := by
  intro nd
  induction nd with
  | nil => intro cd i h; simp [computeChangeLevel] at h
  | cons n ns ih =>
    intro cd i h
    cases cd with
    | nil => simp [computeChangeLevel] at h
    | cons c cs =>
      by_cases he : n = c
      · subst he
        simp [computeChangeLevel] at h
        cases i with
        | zero => simp
        | succ j =>
          simp only [List.getElem?_cons_succ]
          exact ih cs j (by omega)
      · simp [computeChangeLevel, he] at h

/-- The change level is the largest agreement bound. -/
theorem changeLevel_max : ∀ (nd cd : List JSName) k, k ≤ nd.length → k ≤ cd.length →
    (∀ i, i < k → nd[i]? = cd[i]?) → k ≤ computeChangeLevel nd cd := by
  intro nd
  induction nd with
  | nil =>
    intro cd k h _ _
    simp only [List.length_nil, Nat.le_zero] at h
    subst h
    exact Nat.zero_le _
  | cons n ns ih =>
    intro cd k h1 h2 h3
    cases cd with
    | nil =>
      simp only [List.length_nil, Nat.le_zero] at h2
      subst h2
      exact Nat.zero_le _
    | cons c cs =>
      cases k with
      | zero => exact Nat.zero_le _
      | succ j =>
        have h0 := h3 0 (by omega)
        simp only [List.getElem?_cons_zero, Option.some.injEq] at h0
        subst h0
        simp [computeChangeLevel]
        have := ih cs j (by simpa using h1) (by simpa using h2)
          (fun i hi => by simpa using h3 (i + 1) (by omega))
        omega

/-- C1: `changeState` computes the change level as the length of the
longest common prefix of `currentPath` and `newPath` (the largest `k`
such that for all `i < k` the paths agree); consequently, with `forceAll`
unset, the transition `a.b.c` to `a.b.d` exits only `c` and enters only
`d`, and the transition `a.b` to `a.c.d` exits `b` and enters `c` then
`d`. -/
theorem claim1_changeLevel :
    (∀ (newDescr curDescr : List JSName),
      computeChangeLevel newDescr curDescr ≤ newDescr.length ∧
      computeChangeLevel newDescr curDescr ≤ curDescr.length ∧
      (∀ i, i < computeChangeLevel newDescr curDescr → curDescr[i]? = newDescr[i]?) ∧
      (∀ k, k ≤ newDescr.length → k ≤ curDescr.length →
        (∀ i, i < k → curDescr[i]? = newDescr[i]?) → k ≤ computeChangeLevel newDescr curDescr)) ∧
    mgrAtABC.currentStateDescr = [some "a", some "b", some "c"] ∧
    (changeState mgrAtABC "a.b.d" false).2.1 = [.exit (some "c"), .enter (some "d")] ∧
    mgrAtAB2.currentStateDescr = [some "a", some "b"] ∧
    (changeState mgrAtAB2 "a.c.d" false).2.1
      = [.exit (some "b"), .enter (some "c"), .enter (some "d")] := by
  refine ⟨fun nd cd => ⟨changeLevel_le_left nd cd, changeLevel_le_right nd cd,
    fun i hi => (changeLevel_agree nd cd i hi).symm,
    fun k h1 h2 h3 => changeLevel_max nd cd k h1 h2 (fun i hi => (h3 i hi).symm)⟩, ?_, ?_, ?_, ?_⟩
  · simp [mgrAtABC, mgrABCD, mkMgr, initialManager, registerState, registerWalk,
      stateDescrFromStateStr, splitDot, splitDotAux, State.addSubstate, State.getSubstate,
      assocFind, assocReplace, jsKey, computeChangeLevel, collectExitStates, enterWalk,
      defaultCascade, State.getDefaultSubstate, State.enterEvents, State.exitEvents, State.name,
      State.context, State.substates, State.getName, cBoth, changeState]
  · simp [mgrAtABC, mgrABCD, mkMgr, initialManager, registerState, registerWalk,
      stateDescrFromStateStr, splitDot, splitDotAux, State.addSubstate, State.getSubstate,
      assocFind, assocReplace, jsKey, computeChangeLevel, collectExitStates, enterWalk,
      defaultCascade, State.getDefaultSubstate, State.enterEvents, State.exitEvents, State.name,
      State.context, State.substates, State.getName, cBoth, changeState]
  · simp [mgrAtAB2, mgrACD, mkMgr, initialManager, registerState, registerWalk,
      stateDescrFromStateStr, splitDot, splitDotAux, State.addSubstate, State.getSubstate,
      assocFind, assocReplace, jsKey, computeChangeLevel, collectExitStates, enterWalk,
      defaultCascade, State.getDefaultSubstate, State.enterEvents, State.exitEvents, State.name,
      State.context, State.substates, State.getName, cBoth, changeState]
  · simp [mgrAtAB2, mgrACD, mkMgr, initialManager, registerState, registerWalk,
      stateDescrFromStateStr, splitDot, splitDotAux, State.addSubstate, State.getSubstate,
      assocFind, assocReplace, jsKey, computeChangeLevel, collectExitStates, enterWalk,
      defaultCascade, State.getDefaultSubstate, State.enterEvents, State.exitEvents, State.name,
      State.context, State.substates, State.getName, cBoth, changeState]

/-- Every tree has height at least 1. -/
theorem height_pos (s : State) : 1 ≤ State.height s := by
  obtain ⟨n, c, l⟩ := s
  simp [State.height]

/-- The height of a substate found by `assocFind` is bounded by the
list's maximal height. -/
theorem heightList_assocFind {key : String} {l : List (String × State)} {st : State}
    (h : assocFind key l = some st) : State.height st ≤ heightList l := by
  induction l with
  | nil => simp [assocFind] at h
  | cons p rest ih =>
    obtain ⟨k, v⟩ := p
    by_cases hk : k = key
    · simp [assocFind, hk] at h
      subst h
      simp [heightList]
    · simp [assocFind, hk] at h
      have := ih h
      simp [heightList]
      omega

/-- A default substate is strictly lower than its parent. -/
theorem height_getDefaultSubstate {s st : State} (h : s.getDefaultSubstate = some st) :
    State.height st < State.height s := by
  obtain ⟨n, c, l⟩ := s
  simp only [State.getDefaultSubstate, State.context] at h
  match c with
  | none => simp at h
  | some ctx =>
    simp only at h
    match hd : ctx.defaultSubstate with
    | none => simp [hd] at h
    | some nm =>
      simp only [hd] at h
      by_cases he : nm = ""
      · simp [he] at h
      · simp only [he, if_neg, State.substates] at h
        have := heightList_assocFind (l := l) (by simpa using h)
        simp [State.height]
        omega

/-- The cascade performs fewer steps than the height of its start node
(strong induction on the tree size). -/
theorem cascade_len_aux : ∀ n, ∀ s : State, sizeOf s < n →
    (defaultCascade s).2.length < State.height s := by
  intro n
  induction n with
  | zero => intro s h; omega
  | succ k ih =>
    intro s hs
    rw [defaultCascade]
    split
    · next st hd =>
      have h1 := sizeOf_getDefaultSubstate hd
      have h2 := ih st (by omega)
      have h3 := height_getDefaultSubstate hd
      simp only [List.length_cons]
      omega
    · simp only [List.length_nil]
      exact height_pos s

/-- C5: the default-substate cascade of `changeState` terminates on every
tree expressible in this embedding (in particular every tree built through
`registerState`): the number of loop iterations that find a default
substate is bounded by the tree's height, because a default substate,
when it exists, is a strict child, structurally lower than its parent. -/
theorem claim5_cascade_terminates :
    (∀ s : State, (defaultCascade s).2.length < State.height s) ∧
    (∀ s st : State, s.getDefaultSubstate = some st → State.height st < State.height s) :=
  ⟨fun s => cascade_len_aux (sizeOf s + 1) s (by omega), fun _ _ h => height_getDefaultSubstate h⟩

/-- Leaf node `b` with both callbacks and no default. -/
def stB : State := .mk (some "b") (some cBoth) []

/-- Node `a` whose context nominates `b` as default substate. -/
def stA : State := .mk (some "a") (some ⟨true, true, some "b"⟩) [("b", stB)]

/-- C5 witness: the bound applied at the concrete two-node chain `a`
(default `b`), discharging the default-substate hypothesis there. -/
theorem claim5_cascade_terminates_witness :
    (defaultCascade stA).2.length < State.height stA ∧ State.height stB < State.height stA :=
  ⟨claim5_cascade_terminates.1 stA, claim5_cascade_terminates.2 stA stB (by rfl)⟩

/-- Node count distributes over list append. -/
theorem countNodesList_append : ∀ l1 l2 : List (String × State),
    countNodesList (l1 ++ l2) = countNodesList l1 + countNodesList l2 := by
  intro l1 l2
  induction l1 with
  | nil => simp [countNodesList]
  | cons p rest ih =>
    obtain ⟨k, v⟩ := p
    simp [countNodesList, ih]
    omega

/-- Replacing the found child by one with one more node adds one node. -/
theorem countNodesList_replace : ∀ (subs : List (String × State)) a child child',
    assocFind a subs = some child → State.countNodes child' = State.countNodes child + 1 →
    countNodesList (assocReplace a child' subs) = countNodesList subs + 1 := by
  intro subs a child child' hf hc
  induction subs with
  | nil => simp [assocFind] at hf
  | cons p rest ih =>
    obtain ⟨k, v⟩ := p
    by_cases hk : k = a
    · simp [assocFind, hk] at hf
      subst hf
      simp [assocReplace, hk, countNodesList, hc]
      omega
    · simp [assocFind, hk] at hf
      simp [assocReplace, hk, countNodesList, ih hf]
      omega

/-- A successful registration walk adds exactly one node. -/
theorem registerWalk_count : ∀ (anc : List String) (st : State) nm ctx st',
    registerWalk st anc nm ctx = .ok st' →
    State.countNodes st' = State.countNodes st + 1 := by
  intro anc
  induction anc with
  | nil =>
    intro st nm ctx st' h
    simp only [registerWalk, State.addSubstate] at h
    split at h
    · cases h
    · obtain ⟨n, c, l⟩ := st
      simp only [Except.ok.injEq] at h
      subst h
      simp [State.countNodes, State.substates, countNodesList_append, countNodesList]
      omega
  | cons a rest ih =>
    intro st nm ctx st' h
    obtain ⟨n, c, l⟩ := st
    simp only [registerWalk, State.getSubstate, State.substates] at h
    cases hv : assocFind (jsKey (some a)) l with
    | none => simp [hv] at h
    | some v =>
      simp only [hv] at h
      cases hw : registerWalk v rest nm ctx with
      | error e => simp [hw] at h
      | ok child' =>
        simp only [hw, Except.ok.injEq] at h
        subst h
        simp only [State.countNodes, State.substates]
        rw [countNodesList_replace l a v child' (by simpa [jsKey] using hv) (ih _ _ _ _ hw)]
        omega

/-- C10: `registerState` never modifies the current path: whether it
returns normally or throws, `currentState()` (and the underlying
description array) before the call equals its value after, and the tree
gains at most one node. -/
theorem claim10_register_frame :
    ∀ (m : StateManager) (s : String) (c : Option Ctx),
      (registerState m s c).1.currentState = m.currentState ∧
      (registerState m s c).1.currentStateDescr = m.currentStateDescr ∧
      State.countNodes (registerState m s c).1.worldState ≤ State.countNodes m.worldState + 1 := by
  intro m s c
  simp only [registerState]
  split
  · refine ⟨rfl, rfl, ?_⟩
    dsimp only
    omega
  · next w' hw =>
    refine ⟨rfl, rfl, ?_⟩
    dsimp only
    rw [registerWalk_count _ _ _ _ _ hw]

/-- C9: `registerState('')` parses the empty string to zero segments and
registers directly under the root: with no prior `''` registration the
call succeeds and attaches exactly one node under the world root (stored
under the key JavaScript derives from the node's `undefined` name); a
second such call throws the duplicate error. -/
theorem claim9_register_empty :
    stateDescrFromStateStr "" = [] ∧
    (∀ (m : StateManager) (ctx : Option Ctx),
      assocFind "undefined" m.worldState.substates = none →
      registerState m "" ctx =
        (.mk (.mk m.worldState.name m.worldState.context
            (m.worldState.substates ++ [("undefined", .mk none ctx [])])) m.currentStateDescr,
          none)) ∧
    (∀ (m : StateManager) (ctx : Option Ctx) (v : State),
      assocFind "undefined" m.worldState.substates = some v →
      registerState m "" ctx = (m, some .substateAlreadyExists)) := by
  refine ⟨rfl, ?_, ?_⟩
  · intro m ctx h
    obtain ⟨⟨n, c, l⟩, cur⟩ := m
    simp only [State.substates] at h
    simp [registerState, stateDescrFromStateStr, registerWalk, State.addSubstate, State.name,
      State.context, State.substates, jsKey, h]
  · intro m ctx v h
    obtain ⟨⟨n, c, l⟩, cur⟩ := m
    simp only [State.substates] at h
    simp [registerState, stateDescrFromStateStr, registerWalk, State.addSubstate, State.name,
      State.context, State.substates, jsKey, h]

/-- C9 witness: registering `''` on a fresh manager attaches one node
directly under the world root. -/
theorem claim9_register_empty_witness :
    registerState initialManager "" none =
      (.mk (.mk (some "__WORLD__") none [("undefined", .mk none none [])]) [], none) := by
  have := claim9_register_empty.2.1 initialManager none (by rfl)
  simpa [initialManager, State.name, State.context, State.substates] using this

/-- The only error `getSubstate` throws is `'UnknownSubstate'`. -/
theorem getSubstate_error {s : State} {n : JSName} {e : Err}
    (h : s.getSubstate n = .error e) : e = .unknownSubstate := by
  simp only [State.getSubstate] at h
  split at h
  · cases h
  · cases h
    rfl

/-- Replacing at a key that is found changes that key's lookup. -/
theorem assocFind_replace_self : ∀ (l : List (String × State)) key v v',
    assocFind key l = some v → assocFind key (assocReplace key v' l) = some v' := by
  intro l key v v' h
  induction l with
  | nil => simp [assocFind] at h
  | cons p rest ih =>
    obtain ⟨k, w⟩ := p
    by_cases hk : k = key
    · simp [assocFind, assocReplace, hk]
    · simp [assocFind, hk] at h
      simp [assocFind, assocReplace, hk, ih h]

/-- Replacing at one key leaves every other key's lookup unchanged. -/
theorem assocFind_replace_ne : ∀ (l : List (String × State)) key q v', q ≠ key →
    assocFind q (assocReplace key v' l) = assocFind q l := by
  intro l key q v' hq
  induction l with
  | nil => simp [assocReplace, assocFind]
  | cons p rest ih =>
    obtain ⟨k, w⟩ := p
    by_cases hk : k = key
    · have hkq : ¬ (key = q) := fun h2 => hq h2.symm
      simp [assocReplace, assocFind, hk, hkq]
    · simp [assocReplace, assocFind, hk, ih]

/-- A registration whose ancestor walk fails propagates that error. -/
theorem registerWalk_error_resolve : ∀ (anc : List String) (st : State) nm ctx e,
    resolveFrom st (anc.map some) = .error e → registerWalk st anc nm ctx = .error e := by
  intro anc
  induction anc with
  | nil => intro st nm ctx e h; simp [resolveFrom] at h
  | cons a rest ih =>
    intro st nm ctx e h
    simp only [List.map_cons, resolveFrom] at h
    simp only [registerWalk]
    cases hg : st.getSubstate (some a) with
    | error e' =>
      simp only [hg] at h
      cases h
      simp
    | ok child =>
      simp only [hg] at h
      simp [ih _ _ _ _ h]

/-- A registration whose final name collides under the resolved parent
throws `'SubstateAlreadyExists'`. -/
theorem registerWalk_dup : ∀ (anc : List String) (st : State) nm ctx parent v,
    resolveFrom st (anc.map some) = .ok parent →
    assocFind (jsKey nm) parent.substates = some v →
    registerWalk st anc nm ctx = .error .substateAlreadyExists := by
  intro anc
  induction anc with
  | nil =>
    intro st nm ctx parent v h hv
    simp only [resolveFrom, Except.ok.injEq] at h
    subst h
    simp [registerWalk, State.addSubstate, State.name, hv]
  | cons a rest ih =>
    intro st nm ctx parent v h hv
    simp only [List.map_cons, resolveFrom] at h
    simp only [registerWalk]
    cases hg : st.getSubstate (some a) with
    | error e' =>
      simp only [hg] at h
      simp at h
    | ok child =>
      simp only [hg] at h
      simp [ih _ _ _ _ _ h hv]

/-- A registration whose ancestor walk resolves and whose final name is
fresh succeeds, and afterwards the ancestor walk resolves to the parent
with exactly the new node appended. -/
theorem registerWalk_ok_resolve : ∀ (anc : List String) (st : State) nm ctx parent,
    resolveFrom st (anc.map some) = .ok parent →
    assocFind (jsKey nm) parent.substates = none →
    ∃ st', registerWalk st anc nm ctx = .ok st' ∧
      resolveFrom st' (anc.map some) =
        .ok (.mk parent.name parent.context
          (parent.substates ++ [(jsKey nm, .mk nm ctx [])])) := by
  intro anc
  induction anc with
  | nil =>
    intro st nm ctx parent h hv
    simp only [resolveFrom, Except.ok.injEq] at h
    subst h
    refine ⟨State.mk st.name st.context
        (st.substates ++ [(jsKey nm, State.mk nm ctx [])]),
      ?_, by simp [resolveFrom]⟩
    simp [registerWalk, State.addSubstate, State.name, hv]
  | cons a rest ih =>
    intro st nm ctx parent h hv
    obtain ⟨n, c, l⟩ := st
    simp only [List.map_cons, resolveFrom] at h
    cases hg : (State.mk n c l).getSubstate (some a) with
    | error e' =>
      simp only [hg] at h
      simp at h
    | ok child =>
      simp only [hg] at h
      obtain ⟨child', hw, hr⟩ := ih child nm ctx parent h hv
      have hf : assocFind a l = some child := by
        simp only [State.getSubstate, State.substates] at hg
        cases hf' : assocFind (jsKey (some a)) l with
        | none => simp [hf'] at hg
        | some v =>
          simp only [hf', Except.ok.injEq] at hg
          rw [← hg]
          simpa [jsKey] using hf'
      refine ⟨State.mk n c (assocReplace a child' l), ?_, ?_⟩
      · simp [registerWalk, hg, hw, State.name, State.context, State.substates]
      · simp only [List.map_cons, resolveFrom]
        have hgs : (State.mk n c (assocReplace a child' l)).getSubstate (some a)
            = .ok child' := by
          simp only [State.getSubstate, State.substates, jsKey]
          rw [assocFind_replace_self l a child child' hf]
        rw [hgs]
        exact hr

/-- The only error a resolution walk throws is `'UnknownSubstate'`. -/
theorem resolveFrom_error_eq : ∀ (d : List JSName) (st : State) e,
    resolveFrom st d = .error e → e = .unknownSubstate := by
  intro d
  induction d with
  | nil => intro st e h; simp [resolveFrom] at h
  | cons n rest ih =>
    intro st e h
    simp only [resolveFrom] at h
    cases hg : st.getSubstate n with
    | error e' =>
      simp only [hg] at h
      cases h
      exact getSubstate_error hg
    | ok child =>
      simp only [hg] at h
      exact ih child e h

/-- C8: `registerState` fails with the unknown-child error when an
ancestor segment of the path does not resolve (so `x.y` before `x`
fails), fails with the duplicate-name error when the final segment's name
already exists among the resolved parent's substates (so registering `x`
twice fails), and otherwise attaches exactly one new node under the
resolved parent. -/
theorem claim8_register_cases :
    (∀ (m : StateManager) (p : String) (ctx : Option Ctx) (e : Err),
      resolveFrom m.worldState ((stateDescrFromStateStr p).dropLast.map some) = .error e →
      registerState m p ctx = (m, some .unknownSubstate)) ∧
    (∀ (m : StateManager) (p : String) (ctx : Option Ctx) (parent v : State),
      resolveFrom m.worldState ((stateDescrFromStateStr p).dropLast.map some) = .ok parent →
      assocFind (jsKey (stateDescrFromStateStr p).getLast?) parent.substates = some v →
      registerState m p ctx = (m, some .substateAlreadyExists)) ∧
    (∀ (m : StateManager) (p : String) (ctx : Option Ctx) (parent : State),
      resolveFrom m.worldState ((stateDescrFromStateStr p).dropLast.map some) = .ok parent →
      assocFind (jsKey (stateDescrFromStateStr p).getLast?) parent.substates = none →
      ∃ w', registerState m p ctx = (.mk w' m.currentStateDescr, none) ∧
        State.countNodes w' = State.countNodes m.worldState + 1 ∧
        resolveFrom w' ((stateDescrFromStateStr p).dropLast.map some) =
          .ok (.mk parent.name parent.context (parent.substates ++
            [(jsKey (stateDescrFromStateStr p).getLast?,
              .mk (stateDescrFromStateStr p).getLast? ctx [])]))) ∧
    registerState initialManager "x.y" none = (initialManager, some .unknownSubstate) ∧
    (registerState (registerState initialManager "x" none).1 "x" none).2
      = some .substateAlreadyExists := by
  refine ⟨?_, ?_, ?_, by rfl, by rfl⟩
  · intro m p ctx e h
    have he := resolveFrom_error_eq _ _ _ h
    subst he
    simp [registerState, registerWalk_error_resolve _ _ _ _ _ h]
  · intro m p ctx parent v h hv
    simp [registerState, registerWalk_dup _ _ _ _ _ _ h hv]
  · intro m p ctx parent h hv
    obtain ⟨w', hw, hr⟩ := registerWalk_ok_resolve _ _ _ _ _ h hv
    exact ⟨w', by simp [registerState, hw], registerWalk_count _ _ _ _ _ hw, hr⟩

/-- C8 witness: registering `q.r` on a fresh manager (no `q` yet) fails
with the unknown-child error and leaves the manager unchanged. -/
theorem claim8_register_cases_witness :
    registerState initialManager "q.r" none = (initialManager, some .unknownSubstate) :=
  claim8_register_cases.1 initialManager "q.r" none .unknownSubstate (by rfl)

/-- C1 witness: the characterization applied at the concrete descriptions
of `a.c.d` (new) and `a.b` (current): the change level is at least 1 and
at most 2, and the paths agree at index 0. -/
theorem claim1_changeLevel_witness :
    computeChangeLevel [some "a", some "c", some "d"] [some "a", some "b"] ≤ 2 ∧
    ([some "a", some "b"] : List JSName)[0]? = [some "a", some "c", some "d"][0]? ∧
    1 ≤ computeChangeLevel [some "a", some "c", some "d"] [some "a", some "b"] := by
  obtain ⟨h, -, -, -, -⟩ := claim1_changeLevel
  obtain ⟨h1, h2, h3, h4⟩ := h [some "a", some "c", some "d"] [some "a", some "b"]
  refine ⟨h2, ?_, h4 1 (by decide) (by decide) ?_⟩
  · exact h3 0 (by
      have := h4 1 (by decide) (by decide) (fun i hi => by
        have hz : i = 0 := by omega
        subst hz
        decide)
      omega)
  · intro i hi
    have hz : i = 0 := by omega
    subst hz
    decide

theorem enterWalk_snd : ∀ (d : List JSName) (st : State) i k fa,
    (enterWalk st d i k fa).2 = resolveFrom st d := by
  intro d
  induction d with
  | nil => intro st i k fa; simp [enterWalk, resolveFrom]
  | cons n rest ih =>
    intro st i k fa
    simp only [enterWalk, resolveFrom]
    cases hg : st.getSubstate n with
    | error e => simp
    | ok child => simp [ih]

theorem pathNodes_error_resolveFrom : ∀ (d : List JSName) (st : State) e,
    pathNodes st d = .error e → resolveFrom st d = .error e := by
  intro d
  induction d with
  | nil => intro st e h; simp [pathNodes] at h
  | cons n rest ih =>
    intro st e h
    simp only [pathNodes] at h
    simp only [resolveFrom]
    cases hg : st.getSubstate n with
    | error e' =>
      simp only [hg] at h ⊢
      simp only [Except.error.injEq] at h
      rw [h]
    | ok child =>
      simp only [hg] at h ⊢
      cases hp : pathNodes child rest with
      | error e' =>
        simp only [hp] at h
        cases h
        exact ih child e hp
      | ok ns => simp [hp] at h

theorem collectExit_ok_spec : ∀ (d : List JSName) (st : State) i k fa ns,
    pathNodes st d = .ok ns →
    collectExitStates st d i k fa = .ok (if fa then ns else ns.drop (k - i)) := by
  intro d
  induction d with
  | nil =>
    intro st i k fa ns h
    simp only [pathNodes, Except.ok.injEq] at h
    subst h
    cases fa <;> simp [collectExitStates]
  | cons n rest ih =>
    intro st i k fa ns h
    simp only [pathNodes] at h
    simp only [collectExitStates]
    cases hg : st.getSubstate n with
    | error e => simp [hg] at h
    | ok child =>
      simp only [hg] at h
      cases hp : pathNodes child rest with
      | error e => simp [hp] at h
      | ok ns' =>
        simp only [hp, Except.ok.injEq] at h
        subst h
        dsimp only
        rw [ih child (i + 1) k fa ns' hp]
        dsimp only
        cases fa with
        | true => simp
        | false =>
          simp only [Bool.false_eq_true, or_false, if_false]
          by_cases hik : k ≤ i
          · have h1 : k - i = 0 := by omega
            have h2 : k - (i + 1) = 0 := by omega
            simp [hik, h1, h2]
          · have h1 : k - i = (k - (i + 1)) + 1 := by omega
            simp only [hik, if_false]
            rw [h1, List.drop_succ_cons]

theorem collectExit_error_spec : ∀ (d : List JSName) (st : State) i k fa e,
    pathNodes st d = .error e → collectExitStates st d i k fa = .error e := by
  intro d
  induction d with
  | nil => intro st i k fa e h; simp [pathNodes] at h
  | cons n rest ih =>
    intro st i k fa e h
    simp only [pathNodes] at h
    simp only [collectExitStates]
    cases hg : st.getSubstate n with
    | error e' =>
      simp only [hg] at h ⊢
      exact h
    | ok child =>
      simp only [hg] at h ⊢
      cases hp : pathNodes child rest with
      | error e' =>
        simp only [hp] at h
        cases h
        simp [ih child i.succ k fa e hp]
      | ok ns => simp [hp] at h

theorem enterWalk_ok_events : ∀ (d : List JSName) (st : State) i k fa ns,
    pathNodes st d = .ok ns →
    (enterWalk st d i k fa).1
      = (if fa then ns else ns.drop (k - i)).flatMap State.enterEvents := by
  intro d
  induction d with
  | nil =>
    intro st i k fa ns h
    simp only [pathNodes, Except.ok.injEq] at h
    subst h
    cases fa <;> simp [enterWalk]
  | cons n rest ih =>
    intro st i k fa ns h
    simp only [pathNodes] at h
    simp only [enterWalk]
    cases hg : st.getSubstate n with
    | error e => simp [hg] at h
    | ok child =>
      simp only [hg] at h
      cases hp : pathNodes child rest with
      | error e => simp [hp] at h
      | ok ns' =>
        simp only [hp, Except.ok.injEq] at h
        subst h
        simp only
        rw [ih child (i + 1) k fa ns' hp]
        cases fa with
        | true => simp
        | false =>
          simp only [Bool.false_eq_true, or_false]
          by_cases hik : k ≤ i
          · have h1 : k - i = 0 := by omega
            have h2 : k - (i + 1) = 0 := by omega
            simp [hik, h1, h2]
          · have h1 : k - i = (k - (i + 1)) + 1 := by omega
            simp only [hik, if_false]
            rw [h1, List.drop_succ_cons]
            simp



theorem pathNodes_ok_resolveFrom : ∀ (d : List JSName) (st : State) ns,
    pathNodes st d = .ok ns → ∃ lf, resolveFrom st d = .ok lf := by
  intro d
  induction d with
  | nil => intro st ns h; exact ⟨st, rfl⟩
  | cons n rest ih =>
    intro st ns h
    simp only [pathNodes] at h
    simp only [resolveFrom]
    cases hg : st.getSubstate n with
    | error e => simp [hg] at h
    | ok child =>
      simp only [hg] at h
      cases hp : pathNodes child rest with
      | error e => simp [hp] at h
      | ok ns' => exact ih child ns' hp

theorem enterWalk_error_events : ∀ (d : List JSName) (st : State) i k fa e,
    pathNodes st d = .error e →
    ∃ j ns, j < d.length ∧ pathNodes st (d.take j) = .ok ns ∧
      (pathNodes st (d.take (j + 1))).isOk = false ∧
      (enterWalk st d i k fa).1
        = (if fa then ns else ns.drop (k - i)).flatMap State.enterEvents ∧
      (enterWalk st d i k fa).2 = .error e := by
  intro d
  induction d with
  | nil => intro st i k fa e h; simp [pathNodes] at h
  | cons n rest ih =>
    intro st i k fa e h
    simp only [pathNodes] at h
    cases hg : st.getSubstate n with
    | error e' =>
      simp only [hg] at h
      simp only [Except.error.injEq] at h
      subst h
      refine ⟨0, [], by simp, by simp [pathNodes], ?_, ?_, ?_⟩
      · simp [pathNodes, hg, Except.isOk, Except.toBool]
      · simp [enterWalk, hg]
      · simp [enterWalk, hg]
    | ok child =>
      simp only [hg] at h
      cases hp : pathNodes child rest with
      | ok ns => simp [hp] at h
      | error e' =>
        simp only [hp] at h
        simp only [Except.error.injEq] at h
        subst h
        obtain ⟨j, ns, hj, hok, hfail, hev, hsnd⟩ := ih child (i + 1) k fa e' hp
        refine ⟨j + 1, child :: ns, by simpa using hj, ?_, ?_, ?_, ?_⟩
        · simp [pathNodes, hg, hok]
        · simp only [List.take_succ_cons, pathNodes, hg]
          cases hq : pathNodes child (rest.take (j + 1)) with
          | error e2 => simp [hq, Except.isOk, Except.toBool]
          | ok ns2 => simp [hq, Except.isOk, Except.toBool] at hfail
        · simp only [enterWalk, hg]
          rw [hev]
          cases fa with
          | true => simp [State.enterEvents]
          | false =>
            simp only [Bool.false_eq_true, or_false, if_false]
            by_cases hik : k ≤ i
            · have h1 : k - i = 0 := by omega
              have h2 : k - (i + 1) = 0 := by omega
              simp [hik, h1, h2]
            · have h1 : k - i = (k - (i + 1)) + 1 := by omega
              simp only [hik, if_false]
              rw [h1, List.drop_succ_cons]
              simp
        · simp only [enterWalk, hg]
          exact hsnd

theorem enterEvents_isEnter {s : State} {ev : Event} (h : ev ∈ s.enterEvents) :
    ev.isEnter = true := by
  simp only [State.enterEvents] at h
  split at h
  · split at h
    · simp at h
      subst h
      rfl
    · simp at h
  · simp at h

theorem exitEvents_isExit {s : State} {ev : Event} (h : ev ∈ s.exitEvents) :
    ev.isExit = true := by
  simp only [State.exitEvents] at h
  split at h
  · split at h
    · simp at h
      subst h
      rfl
    · simp at h
  · simp at h

theorem cascade_all_enter_aux : ∀ n, ∀ s : State, sizeOf s < n →
    ∀ ev ∈ (defaultCascade s).1, ev.isEnter = true := by
  intro n
  induction n with
  | zero => intro s h; omega
  | succ k ih =>
    intro s hs ev hev
    rw [defaultCascade] at hev
    revert hev
    split
    · next st hd =>
      intro hev
      simp only [List.mem_append] at hev
      rcases hev with h1 | h2
      · exact enterEvents_isEnter h1
      · exact ih st (by have := sizeOf_getDefaultSubstate hd; omega) ev h2
    · intro hev
      simp at hev

theorem cascade_all_enter {s : State} {ev : Event} (h : ev ∈ (defaultCascade s).1) :
    ev.isEnter = true :=
  cascade_all_enter_aux (sizeOf s + 1) s (by omega) ev h



/-- The exit-phase trace the spec describes. -/
def exitPhaseEvents (ns : List State) (k : Nat) (fa : Bool) : List Event :=
  (if fa then ns else ns.drop k).reverse.flatMap State.exitEvents

/-- The enter-phase trace the spec describes. -/
def enterPhaseEvents (ns : List State) (k : Nat) (fa : Bool) : List Event :=
  (if fa then ns else ns.drop k).flatMap State.enterEvents

/-- Cascade demonstration manager: `a` (default substate `b`) and `a.b`. -/
def mgrCasc : StateManager := mkMgr [("a", some ⟨true, true, some "b"⟩), ("a.b", some cBoth)]

/-- C2 counterexample: a successful transition to `a` whose leaf has a
default substate `b` invokes an `enter` callback on `b`, a node not on
`newPath`; the invoked enter callbacks are therefore not exactly those of
the `newPath` nodes at index `>= k`. -/
theorem claim2_exact_counterexample :
    (changeState mgrCasc "a" false).2.2 = none ∧
    (changeState mgrCasc "a" false).2.1 = [.enter (some "a"), .enter (some "b")] ∧
    pathNodes mgrCasc.worldState ((stateDescrFromStateStr "a").map some) = .ok [stA] ∧
    mgrCasc.currentStateDescr = [] ∧
    computeChangeLevel ((stateDescrFromStateStr "a").map some) [] = 0 ∧
    (changeState mgrCasc "a" false).2.1
      ≠ exitPhaseEvents [] 0 false ++ enterPhaseEvents [stA] 0 false := by
  have hTr : (changeState mgrCasc "a" false).2.1 = [.enter (some "a"), .enter (some "b")] := by
    simp [changeState, mgrCasc, mkMgr, initialManager, registerState, registerWalk,
      stateDescrFromStateStr, splitDot, splitDotAux, State.addSubstate, State.getSubstate,
      assocFind, assocReplace, jsKey, computeChangeLevel, collectExitStates, enterWalk,
      defaultCascade, State.getDefaultSubstate, State.enterEvents, State.exitEvents, State.name,
      State.context, State.substates, State.getName, cBoth]
  refine ⟨?_, hTr, ?_, rfl, rfl, ?_⟩
  · simp [changeState, mgrCasc, mkMgr, initialManager, registerState, registerWalk,
      stateDescrFromStateStr, splitDot, splitDotAux, State.addSubstate, State.getSubstate,
      assocFind, assocReplace, jsKey, computeChangeLevel, collectExitStates, enterWalk,
      defaultCascade, State.getDefaultSubstate, State.enterEvents, State.exitEvents, State.name,
      State.context, State.substates, State.getName, cBoth]
  · rfl
  · rw [hTr]
    decide

/-- C2 (amended): for every successful transition, the exit callbacks are
invoked on exactly the nodes of `currentPath` at index `>= k` (all of
them if `forceAll`) in reverse, deepest-first order, then the enter
callbacks on exactly the nodes of `newPath` at index `>= k` (all if
`forceAll`) in forward, shallowest-first order, followed by the
default-substate cascade's enter callbacks; every exit call precedes
every enter call. -/
theorem claim2_order_amended :
    ∀ (m : StateManager) (p : String) (fa : Bool) (m' : StateManager) (tr : List Event),
      changeState m p fa = (m', tr, none) →
      ∃ curNs newNs leaf,
        pathNodes m.worldState m.currentStateDescr = .ok curNs ∧
        pathNodes m.worldState ((stateDescrFromStateStr p).map some) = .ok newNs ∧
        resolveFrom m.worldState ((stateDescrFromStateStr p).map some) = .ok leaf ∧
        tr = exitPhaseEvents curNs
              (computeChangeLevel ((stateDescrFromStateStr p).map some) m.currentStateDescr) fa
          ++ enterPhaseEvents newNs
              (computeChangeLevel ((stateDescrFromStateStr p).map some) m.currentStateDescr) fa
          ++ (defaultCascade leaf).1 ∧
        (∀ ev ∈ exitPhaseEvents curNs
            (computeChangeLevel ((stateDescrFromStateStr p).map some) m.currentStateDescr) fa,
          ev.isExit = true) ∧
        (∀ ev ∈ enterPhaseEvents newNs
            (computeChangeLevel ((stateDescrFromStateStr p).map some) m.currentStateDescr) fa
            ++ (defaultCascade leaf).1,
          ev.isEnter = true) := by
  intro m p fa m' tr h
  simp only [changeState] at h
  cases hc : collectExitStates m.worldState m.currentStateDescr 0
      (computeChangeLevel ((stateDescrFromStateStr p).map some) m.currentStateDescr) fa with
  | error e =>
    rw [hc] at h
    simp at h
  | ok exs =>
    rw [hc] at h
    cases hpc : pathNodes m.worldState m.currentStateDescr with
    | error e =>
      rw [collectExit_error_spec _ _ _ _ _ _ hpc] at hc
      cases hc
    | ok curNs =>
      have hcs := collectExit_ok_spec m.currentStateDescr m.worldState 0
        (computeChangeLevel ((stateDescrFromStateStr p).map some) m.currentStateDescr) fa
        curNs hpc
      rw [hc] at hcs
      simp only [Except.ok.injEq] at hcs
      rcases hew : enterWalk m.worldState ((stateDescrFromStateStr p).map some) 0
        (computeChangeLevel ((stateDescrFromStateStr p).map some) m.currentStateDescr) fa
        with ⟨evs, res⟩
      rw [hew] at h
      have hsnd := enterWalk_snd ((stateDescrFromStateStr p).map some) m.worldState 0
        (computeChangeLevel ((stateDescrFromStateStr p).map some) m.currentStateDescr) fa
      rw [hew] at hsnd
      cases hpn : pathNodes m.worldState ((stateDescrFromStateStr p).map some) with
      | error e =>
        have hrf := pathNodes_error_resolveFrom _ _ _ hpn
        rw [hrf] at hsnd
        cases res with
        | error e2 => simp at h
        | ok leaf => cases hsnd
      | ok newNs =>
        cases res with
        | error e2 => simp at h
        | ok leaf =>
          have hev := enterWalk_ok_events ((stateDescrFromStateStr p).map some) m.worldState 0
            (computeChangeLevel ((stateDescrFromStateStr p).map some) m.currentStateDescr) fa
            newNs hpn
          rw [hew] at hev
          simp only at hev
          simp only [Prod.mk.injEq] at h
          refine ⟨curNs, newNs, leaf, rfl, rfl, hsnd.symm, ?_, ?_, ?_⟩
          · rw [← h.2.1, hev, hcs]
            simp [exitPhaseEvents, enterPhaseEvents, Nat.sub_zero]
          · intro ev hevm
            simp only [exitPhaseEvents, List.mem_flatMap, List.mem_reverse] at hevm
            obtain ⟨s, hs1, hs2⟩ := hevm
            exact exitEvents_isExit hs2
          · intro ev hevm
            simp only [enterPhaseEvents, List.mem_append, List.mem_flatMap] at hevm
            rcases hevm with ⟨s, hs1, hs2⟩ | h2
            · exact enterEvents_isEnter hs2
            · exact cascade_all_enter h2



/-- C2 witness: the amended theorem applied to the transition `a.b.c` to
`a.b.d`, yielding the concrete trace exit `c` then enter `d`. -/
theorem claim2_order_amended_witness :
    (changeState mgrAtABC "a.b.d" false).2.1
      = [Event.exit (some "c"), Event.enter (some "d")] := by
  obtain ⟨curNs, newNs, leaf, h1, h2, h3, h4, h5, h6⟩ :=
    claim2_order_amended mgrAtABC "a.b.d" false (changeState mgrAtABC "a.b.d" false).1
      (changeState mgrAtABC "a.b.d" false).2.1 (by
        simp [changeState, mgrAtABC, mgrABCD, mkMgr, initialManager, registerState, registerWalk,
          stateDescrFromStateStr, splitDot, splitDotAux, State.addSubstate, State.getSubstate,
          assocFind, assocReplace, jsKey, computeChangeLevel, collectExitStates, enterWalk,
          defaultCascade, State.getDefaultSubstate, State.enterEvents, State.exitEvents,
          State.name, State.context, State.substates, State.getName, cBoth])
  simp [mgrAtABC, mgrABCD, mkMgr, initialManager, registerState, registerWalk,
    stateDescrFromStateStr, splitDot, splitDotAux, State.addSubstate, State.getSubstate,
    assocFind, assocReplace, jsKey, State.name, State.context, State.substates,
    changeState, computeChangeLevel, collectExitStates, enterWalk, defaultCascade,
    State.getDefaultSubstate, cBoth, pathNodes, resolveFrom] at h1 h2 h3
  subst h1
  subst h2
  subst h3
  rw [h4]
  simp [exitPhaseEvents, enterPhaseEvents, defaultCascade, State.getDefaultSubstate,
    State.context, State.substates, State.enterEvents, State.exitEvents, State.name,
    computeChangeLevel, mgrAtABC, mgrABCD, mkMgr, initialManager, registerState, registerWalk,
    stateDescrFromStateStr, splitDot, splitDotAux, State.addSubstate, State.getSubstate,
    assocFind, assocReplace, jsKey, changeState, collectExitStates, enterWalk, cBoth,
    State.getName]



/-- String concatenation is associative. -/
theorem str_append_assoc (a b c : String) : a ++ b ++ c = a ++ (b ++ c) := by
  apply String.ext
  simp [String.data_append]

/-- Unfolding `join` on a list with at least two elements. -/
theorem jsJoin_cons (n : JSName) (rest : List JSName) (h : rest ≠ []) :
    jsJoin (n :: rest) = jsElemStr n ++ "." ++ jsJoin rest := by
  cases rest with
  | nil => exact absurd rfl h
  | cons x xs => rfl

/-- `join('.')` over a concatenation of nonempty lists. -/
theorem jsJoin_append (xs ys : List JSName) (hx : xs ≠ []) (hy : ys ≠ []) :
    jsJoin (xs ++ ys) = jsJoin xs ++ "." ++ jsJoin ys := by
  induction xs with
  | nil => exact absurd rfl hx
  | cons x xs' ih =>
    cases xs' with
    | nil =>
      rw [List.singleton_append, jsJoin_cons x ys hy]
      rfl
    | cons y ys' =>
      rw [List.cons_append, jsJoin_cons x ((y :: ys') ++ ys) (by simp),
        jsJoin_cons x (y :: ys') (by simp), ih (by simp)]
      apply String.ext
      simp [String.data_append]

/-- `split('.')` never returns an empty array. -/
theorem splitDotAux_ne_nil : ∀ (cs acc : List Char), splitDotAux cs acc ≠ [] := by
  intro cs
  induction cs with
  | nil => intro acc; simp [splitDotAux]
  | cons c rest ih =>
    intro acc
    by_cases hc : c = '.'
    · simp [splitDotAux, hc]
    · simp only [splitDotAux, hc, if_false]
      exact ih (c :: acc)

/-- Joining what splitting produced restores the accumulator and the
remaining characters. -/
theorem jsJoin_splitDotAux : ∀ (cs acc : List Char),
    jsJoin ((splitDotAux cs acc).map some) = String.mk acc.reverse ++ String.mk cs := by
  intro cs
  induction cs with
  | nil =>
    intro acc
    apply String.ext
    simp [splitDotAux, jsJoin, jsElemStr, String.data_append]
  | cons c rest ih =>
    intro acc
    by_cases hc : c = '.'
    · subst hc
      have hne : (splitDotAux rest []).map some ≠ [] := by
        simp [splitDotAux_ne_nil rest []]
      rw [show splitDotAux ('.' :: rest) acc
            = String.mk acc.reverse :: splitDotAux rest [] from by simp [splitDotAux]]
      rw [List.map_cons, jsJoin_cons _ _ hne]
      rw [show jsJoin ((splitDotAux rest []).map some)
            = String.mk [].reverse ++ String.mk rest from ih []]
      apply String.ext
      simp [jsElemStr, String.data_append]
    · rw [show splitDotAux (c :: rest) acc = splitDotAux rest (c :: acc) from by
        simp [splitDotAux, hc]]
      rw [ih (c :: acc)]
      apply String.ext
      simp [String.data_append]

/-- `join('.')` is a left inverse of `stateDescrFromStateStr`. -/
theorem jsJoin_split (p : String) : jsJoin ((stateDescrFromStateStr p).map some) = p := by
  by_cases hp : p = ""
  · subst hp
    rfl
  · simp only [stateDescrFromStateStr, splitDot]
    rw [if_neg hp]
    rw [jsJoin_splitDotAux p.data []]
    apply String.ext
    simp [String.data_append]



/-- Chain demonstration: `a` (default `b`), `a.b` (default `c`), `a.b.c`. -/
def mgrChain : StateManager :=
  mkMgr [("a", some ⟨true, true, some "b"⟩), ("a.b", some ⟨true, true, some "c"⟩),
    ("a.b.c", some cBoth)]

def chainNodeC : State := .mk (some "c") (some cBoth) []

def chainNodeB : State := .mk (some "b") (some ⟨true, true, some "c"⟩) [("c", chainNodeC)]

def chainNodeA : State := .mk (some "a") (some ⟨true, true, some "b"⟩) [("b", chainNodeB)]

/-- C3: a successful `changeState(p)` leaves `currentPath` equal to `p`'s
description extended by the names the default-substate cascade enters
from `p`'s leaf, so `currentState()` returns exactly `p` when no default
applies and `p` extended by the cascade names otherwise; with the chain
`a` -> default `b` -> default `c`, `changeState('a')` makes
`currentState()` equal `a.b.c`. -/
theorem claim3_currentState :
    (∀ (m : StateManager) (p : String) (m' : StateManager) (tr : List Event) (leaf : State),
      changeState m p false = (m', tr, none) →
      resolveFrom m.worldState ((stateDescrFromStateStr p).map some) = .ok leaf →
      m'.currentStateDescr = (stateDescrFromStateStr p).map some ++ (defaultCascade leaf).2 ∧
      ((defaultCascade leaf).2 = [] → m'.currentState = p) ∧
      ((stateDescrFromStateStr p).map some ≠ [] → (defaultCascade leaf).2 ≠ [] →
        m'.currentState = p ++ "." ++ jsJoin (defaultCascade leaf).2)) ∧
    (changeState mgrChain "a" false).1.currentState = "a.b.c" := by
  constructor
  · intro m p m' tr leaf h hleaf
    simp only [changeState] at h
    cases hc : collectExitStates m.worldState m.currentStateDescr 0
        (computeChangeLevel ((stateDescrFromStateStr p).map some) m.currentStateDescr) false with
    | error e =>
      rw [hc] at h
      simp at h
    | ok exs =>
      rw [hc] at h
      rcases hew : enterWalk m.worldState ((stateDescrFromStateStr p).map some) 0
        (computeChangeLevel ((stateDescrFromStateStr p).map some) m.currentStateDescr) false
        with ⟨evs, res⟩
      rw [hew] at h
      have hsnd := enterWalk_snd ((stateDescrFromStateStr p).map some) m.worldState 0
        (computeChangeLevel ((stateDescrFromStateStr p).map some) m.currentStateDescr) false
      rw [hew, hleaf] at hsnd
      simp only at hsnd
      subst hsnd
      simp only [Prod.mk.injEq] at h
      have hm' : m' = .mk m.worldState
          ((stateDescrFromStateStr p).map some ++ (defaultCascade leaf).2) := h.1.symm
      subst hm'
      refine ⟨rfl, ?_, ?_⟩
      · intro hcasc
        simp only [StateManager.currentState, hcasc, List.append_nil]
        exact jsJoin_split p
      · intro hnd hcasc
        simp only [StateManager.currentState]
        rw [jsJoin_append _ _ hnd hcasc, jsJoin_split p]
  · simp [changeState, mgrChain, mkMgr, initialManager, registerState, registerWalk,
      stateDescrFromStateStr, splitDot, splitDotAux, State.addSubstate, State.getSubstate,
      assocFind, assocReplace, jsKey, computeChangeLevel, collectExitStates, enterWalk,
      defaultCascade, State.getDefaultSubstate, State.enterEvents, State.exitEvents, State.name,
      State.context, State.substates, State.getName, cBoth, StateManager.currentState, jsJoin,
      jsElemStr]

/-- C3 witness: the theorem applied to the chain manager: the current
description after `changeState('a')` is `a`, `b`, `c`. -/
theorem claim3_currentState_witness :
    (changeState mgrChain "a" false).1.currentStateDescr
      = [some "a", some "b", some "c"] := by
  obtain ⟨h1, h2, h3⟩ := claim3_currentState.1 mgrChain "a"
    (changeState mgrChain "a" false).1 (changeState mgrChain "a" false).2.1 chainNodeA
    (by
      simp [changeState, mgrChain, mkMgr, initialManager, registerState, registerWalk,
        stateDescrFromStateStr, splitDot, splitDotAux, State.addSubstate, State.getSubstate,
        assocFind, assocReplace, jsKey, computeChangeLevel, collectExitStates, enterWalk,
        defaultCascade, State.getDefaultSubstate, State.enterEvents, State.exitEvents, State.name,
        State.context, State.substates, State.getName, cBoth])
    (by
      simp [mgrChain, mkMgr, initialManager, registerState, registerWalk, stateDescrFromStateStr,
        splitDot, splitDotAux, State.addSubstate, State.getSubstate, assocFind, assocReplace,
        jsKey, State.name, State.context, State.substates, resolveFrom, chainNodeA, chainNodeB,
        chainNodeC, cBoth])
  rw [h1]
  simp [stateDescrFromStateStr, splitDot, splitDotAux, defaultCascade, chainNodeA, chainNodeB,
    chainNodeC, State.getDefaultSubstate, State.context, State.substates, assocFind, cBoth,
    State.getName, State.name, State.enterEvents]



/-- Manager with `a` and `a.b` registered, both with callbacks. -/
def mgrAB : StateManager := mkMgr [("a", some cBoth), ("a.b", some cBoth)]

/-- `mgrAB` after a transition to `a.b`. -/
def mgrAtAB : StateManager := (changeState mgrAB "a.b" false).1

/-- C7: `changeState(p, true)` with the current path equal to `p`'s
description re-exits every active node deepest-first and re-enters every
segment shallowest-first (for `a.b`: exit `b`, exit `a`, enter `a`, enter
`b`), even though the change level would equal the full path length and,
with `forceAll` unset, would suppress all callbacks (empty trace). -/
theorem claim7_forceAll :
    (∀ (m : StateManager) (p : String) (m' : StateManager) (tr : List Event),
      m.currentStateDescr = (stateDescrFromStateStr p).map some →
      changeState m p true = (m', tr, none) →
      ∃ ns leaf,
        pathNodes m.worldState ((stateDescrFromStateStr p).map some) = .ok ns ∧
        resolveFrom m.worldState ((stateDescrFromStateStr p).map some) = .ok leaf ∧
        tr = ns.reverse.flatMap State.exitEvents ++ ns.flatMap State.enterEvents
          ++ (defaultCascade leaf).1) ∧
    (changeState mgrAtAB "a.b" true).2.1
      = [.exit (some "b"), .exit (some "a"), .enter (some "a"), .enter (some "b")] ∧
    (changeState mgrAtAB "a.b" false).2.1 = [] := by
  refine ⟨?_, ?_, ?_⟩
  · intro m p m' tr hcur h
    simp only [changeState] at h
    cases hc : collectExitStates m.worldState m.currentStateDescr 0
        (computeChangeLevel ((stateDescrFromStateStr p).map some) m.currentStateDescr) true with
    | error e =>
      rw [hc] at h
      simp at h
    | ok exs =>
      rw [hc] at h
      cases hpn : pathNodes m.worldState ((stateDescrFromStateStr p).map some) with
      | error e =>
        have hpc : pathNodes m.worldState m.currentStateDescr = .error e := by
          rw [hcur]
          exact hpn
        rw [collectExit_error_spec _ _ _ _ _ _ hpc] at hc
        cases hc
      | ok ns =>
        have hpc : pathNodes m.worldState m.currentStateDescr = .ok ns := by
          rw [hcur]
          exact hpn
        have hcs := collectExit_ok_spec m.currentStateDescr m.worldState 0
          (computeChangeLevel ((stateDescrFromStateStr p).map some) m.currentStateDescr) true
          ns hpc
        rw [hc] at hcs
        simp only [if_pos rfl, Except.ok.injEq] at hcs
        rcases hew : enterWalk m.worldState ((stateDescrFromStateStr p).map some) 0
          (computeChangeLevel ((stateDescrFromStateStr p).map some) m.currentStateDescr) true
          with ⟨evs, res⟩
        rw [hew] at h
        have hsnd := enterWalk_snd ((stateDescrFromStateStr p).map some) m.worldState 0
          (computeChangeLevel ((stateDescrFromStateStr p).map some) m.currentStateDescr) true
        rw [hew] at hsnd
        simp only at hsnd
        cases res with
        | error e2 => simp at h
        | ok leaf =>
          have hev := enterWalk_ok_events ((stateDescrFromStateStr p).map some) m.worldState 0
            (computeChangeLevel ((stateDescrFromStateStr p).map some) m.currentStateDescr) true
            ns hpn
          rw [hew] at hev
          simp only [if_pos rfl] at hev
          simp only [Prod.mk.injEq] at h
          simp only [if_pos trivial] at hcs hev
          refine ⟨ns, leaf, rfl, hsnd.symm, ?_⟩
          rw [← h.2.1, hev, hcs]
  · simp [changeState, mgrAtAB, mgrAB, mkMgr, initialManager, registerState, registerWalk,
      stateDescrFromStateStr, splitDot, splitDotAux, State.addSubstate, State.getSubstate,
      assocFind, assocReplace, jsKey, computeChangeLevel, collectExitStates, enterWalk,
      defaultCascade, State.getDefaultSubstate, State.enterEvents, State.exitEvents, State.name,
      State.context, State.substates, State.getName, cBoth]
  · simp [changeState, mgrAtAB, mgrAB, mkMgr, initialManager, registerState, registerWalk,
      stateDescrFromStateStr, splitDot, splitDotAux, State.addSubstate, State.getSubstate,
      assocFind, assocReplace, jsKey, computeChangeLevel, collectExitStates, enterWalk,
      defaultCascade, State.getDefaultSubstate, State.enterEvents, State.exitEvents, State.name,
      State.context, State.substates, State.getName, cBoth]

/-- C7 witness: the theorem applied to a transition from the empty path
to itself with `forceAll`: the trace is empty because no node is active
and the root has no callbacks. -/
theorem claim7_forceAll_witness : (changeState mgrCasc "" true).2.1 = [] := by
  obtain ⟨ns, leaf, h1, h2, h3⟩ := claim7_forceAll.1 mgrCasc ""
    (changeState mgrCasc "" true).1 (changeState mgrCasc "" true).2.1 (by rfl)
    (by
      simp [changeState, mgrCasc, mkMgr, initialManager, registerState, registerWalk,
        stateDescrFromStateStr, splitDot, splitDotAux, State.addSubstate, State.getSubstate,
        assocFind, assocReplace, jsKey, computeChangeLevel, collectExitStates, enterWalk,
        defaultCascade, State.getDefaultSubstate, State.enterEvents, State.exitEvents, State.name,
        State.context, State.substates, State.getName, cBoth])
  simp only [stateDescrFromStateStr, if_pos rfl, List.map_nil, pathNodes, Except.ok.injEq,
    resolveFrom] at h1 h2
  rw [h3, ← h1, ← h2]
  simp [mgrCasc, mkMgr, initialManager, registerState, registerWalk, stateDescrFromStateStr,
    splitDot, splitDotAux, State.addSubstate, State.getSubstate, assocFind, assocReplace, jsKey,
    State.name, State.context, State.substates, defaultCascade, State.getDefaultSubstate, cBoth]



/-- C4: a transition that throws leaves the manager unchanged
(`currentPath` is replaced only after both walks complete); when the
throw happens in the enter phase the trace is the full exit phase
followed by the enter events of the resolved prefix of the target path
only (nothing is rolled back, no exited node is re-entered, the error is
the unknown-child error); and a transition to an unresolvable path never
reports success. -/
theorem claim4_abort :
    (∀ (m : StateManager) (p : String) (fa : Bool) (m' : StateManager) (tr : List Event) (e : Err),
      changeState m p fa = (m', tr, some e) → m' = m) ∧
    (∀ (m : StateManager) (p : String) (fa : Bool) (m' : StateManager) (tr : List Event) (e : Err)
        (exs : List State),
      changeState m p fa = (m', tr, some e) →
      collectExitStates m.worldState m.currentStateDescr 0
        (computeChangeLevel ((stateDescrFromStateStr p).map some) m.currentStateDescr) fa
        = .ok exs →
      e = .unknownSubstate ∧
      ∃ j ns, j < ((stateDescrFromStateStr p).map some).length ∧
        pathNodes m.worldState (((stateDescrFromStateStr p).map some).take j) = .ok ns ∧
        (pathNodes m.worldState (((stateDescrFromStateStr p).map some).take (j + 1))).isOk
          = false ∧
        tr = exs.reverse.flatMap State.exitEvents
          ++ enterPhaseEvents ns
              (computeChangeLevel ((stateDescrFromStateStr p).map some) m.currentStateDescr) fa ∧
        (∀ ev ∈ enterPhaseEvents ns
            (computeChangeLevel ((stateDescrFromStateStr p).map some) m.currentStateDescr) fa,
          ev.isEnter = true)) ∧
    (∀ (m : StateManager) (p : String) (fa : Bool),
      (resolveFrom m.worldState ((stateDescrFromStateStr p).map some)).isOk = false →
      (changeState m p fa).2.2 ≠ none) := by
  refine ⟨?_, ?_, ?_⟩
  · intro m p fa m' tr e h
    simp only [changeState] at h
    cases hc : collectExitStates m.worldState m.currentStateDescr 0
        (computeChangeLevel ((stateDescrFromStateStr p).map some) m.currentStateDescr) fa with
    | error e2 =>
      rw [hc] at h
      simp only [Prod.mk.injEq] at h
      exact h.1.symm
    | ok exs =>
      rw [hc] at h
      rcases hew : enterWalk m.worldState ((stateDescrFromStateStr p).map some) 0
        (computeChangeLevel ((stateDescrFromStateStr p).map some) m.currentStateDescr) fa
        with ⟨evs, res⟩
      rw [hew] at h
      cases res with
      | error e2 =>
        simp only [Prod.mk.injEq] at h
        exact h.1.symm
      | ok leaf => simp at h
  · intro m p fa m' tr e exs h hc
    simp only [changeState] at h
    rw [hc] at h
    rcases hew : enterWalk m.worldState ((stateDescrFromStateStr p).map some) 0
      (computeChangeLevel ((stateDescrFromStateStr p).map some) m.currentStateDescr) fa
      with ⟨evs, res⟩
    rw [hew] at h
    cases res with
    | ok leaf => simp at h
    | error e2 =>
      simp only [Prod.mk.injEq] at h
      cases hpn : pathNodes m.worldState ((stateDescrFromStateStr p).map some) with
      | ok ns =>
        obtain ⟨lf, hlf⟩ := pathNodes_ok_resolveFrom _ _ _ hpn
        have hsnd := enterWalk_snd ((stateDescrFromStateStr p).map some) m.worldState 0
          (computeChangeLevel ((stateDescrFromStateStr p).map some) m.currentStateDescr) fa
        rw [hew, hlf] at hsnd
        cases hsnd
      | error e3 =>
        obtain ⟨j, ns, hj, hok, hfail, hev, hsnd2⟩ := enterWalk_error_events
          ((stateDescrFromStateStr p).map some) m.worldState 0
          (computeChangeLevel ((stateDescrFromStateStr p).map some) m.currentStateDescr) fa
          e3 hpn
        rw [hew] at hev hsnd2
        simp only at hev hsnd2
        have he2 : e2 = e3 := by simpa using hsnd2
        have he : e = .unknownSubstate := by
          have h4 := resolveFrom_error_eq _ _ _ (pathNodes_error_resolveFrom _ _ _ hpn)
          have h6 : e2 = e := by simpa using h.2.2
          rw [← h6, he2]
          exact h4
        refine ⟨he, j, ns, hj, hok, hfail, ?_, ?_⟩
        · rw [← h.2.1, hev]
          simp [enterPhaseEvents, Nat.sub_zero]
        · intro ev hevm
          simp only [enterPhaseEvents, List.mem_flatMap] at hevm
          obtain ⟨s, hs1, hs2⟩ := hevm
          exact enterEvents_isEnter hs2
  · intro m p fa hnok
    cases hrf : resolveFrom m.worldState ((stateDescrFromStateStr p).map some) with
    | ok lf => simp [hrf, Except.isOk, Except.toBool] at hnok
    | error e0 =>
      simp only [changeState]
      cases hc : collectExitStates m.worldState m.currentStateDescr 0
          (computeChangeLevel ((stateDescrFromStateStr p).map some) m.currentStateDescr) fa with
      | error e => simp
      | ok exs =>
        rcases hew : enterWalk m.worldState ((stateDescrFromStateStr p).map some) 0
          (computeChangeLevel ((stateDescrFromStateStr p).map some) m.currentStateDescr) fa
          with ⟨evs, res⟩
        have hsnd := enterWalk_snd ((stateDescrFromStateStr p).map some) m.worldState 0
          (computeChangeLevel ((stateDescrFromStateStr p).map some) m.currentStateDescr) fa
        rw [hew, hrf] at hsnd
        simp only at hsnd
        subst hsnd
        simp

/-- C4 witness: transitioning `mgrAtAB` to the unregistered `a.zzz`
leaves the manager unchanged and reports an error. -/
theorem claim4_abort_witness :
    (changeState mgrAtAB "a.zzz" false).1 = mgrAtAB ∧
    (changeState mgrAtAB "a.zzz" false).2.2 ≠ none := by
  constructor
  · exact claim4_abort.1 mgrAtAB "a.zzz" false (changeState mgrAtAB "a.zzz" false).1
      (changeState mgrAtAB "a.zzz" false).2.1 Err.unknownSubstate (by
        simp [changeState, mgrAtAB, mgrAB, mkMgr, initialManager, registerState, registerWalk,
          stateDescrFromStateStr, splitDot, splitDotAux, State.addSubstate, State.getSubstate,
          assocFind, assocReplace, jsKey, computeChangeLevel, collectExitStates, enterWalk,
          defaultCascade, State.getDefaultSubstate, State.enterEvents, State.exitEvents,
          State.name, State.context, State.substates, State.getName, cBoth])
  · exact claim4_abort.2.2 mgrAtAB "a.zzz" false (by
      simp [mgrAtAB, mgrAB, mkMgr, initialManager, registerState, registerWalk,
        stateDescrFromStateStr, splitDot, splitDotAux, State.addSubstate, State.getSubstate,
        assocFind, assocReplace, jsKey, State.name, State.context, State.substates, resolveFrom,
        cBoth, Except.isOk, Except.toBool, changeState, computeChangeLevel, collectExitStates,
        enterWalk, defaultCascade, State.getDefaultSubstate])

mutual

/-- Well-keyed tree: every substate is stored under the property key
JavaScript derives from its own name, recursively (true of every tree
`registerState` builds, since `addSubstate` stores under that key). -/
def State.wfKeys : State → Bool
  | .mk _ _ l => wfKeysList l

/-- Well-keyed substate list. -/
def wfKeysList : List (String × State) → Bool
  | [] => true
  | (k, st) :: rest => (k == jsKey st.name) && State.wfKeys st && wfKeysList rest

end

/-- In a well-keyed list a found substate carries the key it is stored
under and is itself well-keyed. -/
theorem wfKeysList_find : ∀ (l : List (String × State)) q st, wfKeysList l = true →
    assocFind q l = some st → jsKey st.name = q ∧ State.wfKeys st = true := by
  intro l
  induction l with
  | nil => intro q st _ h; simp [assocFind] at h
  | cons p rest ih =>
    intro q st hw h
    obtain ⟨k, v⟩ := p
    simp only [wfKeysList, Bool.and_eq_true, beq_iff_eq] at hw
    by_cases hk : k = q
    · simp [assocFind, hk] at h
      subst h
      exact ⟨by rw [← hw.1.1, hk], hw.1.2⟩
    · simp [assocFind, hk] at h
      exact ih q st hw.2 h

/-- `getSubstate` of a well-keyed node returns a well-keyed node. -/
theorem wfKeys_getSubstate {s st : State} {n : JSName} (hw : State.wfKeys s = true)
    (h : s.getSubstate n = .ok st) : State.wfKeys st = true := by
  obtain ⟨nm, c, l⟩ := s
  simp only [State.getSubstate, State.substates] at h
  cases hf : assocFind (jsKey n) l with
  | none => simp [hf] at h
  | some v =>
    simp only [hf, Except.ok.injEq] at h
    subst h
    exact (wfKeysList_find l (jsKey n) v (by simpa [State.wfKeys] using hw) hf).2

/-- Resolution from a well-keyed node reaches well-keyed nodes. -/
theorem wfKeys_resolveFrom : ∀ (d : List JSName) (s s' : State), State.wfKeys s = true →
    resolveFrom s d = .ok s' → State.wfKeys s' = true := by
  intro d
  induction d with
  | nil =>
    intro s s' hw h
    simp only [resolveFrom, Except.ok.injEq] at h
    subst h
    exact hw
  | cons n rest ih =>
    intro s s' hw h
    simp only [resolveFrom] at h
    cases hg : s.getSubstate n with
    | error e => simp [hg] at h
    | ok child =>
      simp only [hg] at h
      exact ih child s' (wfKeys_getSubstate hw hg) h

/-- A default substate is found in the substate list under some key. -/
theorem getDefaultSubstate_find {s st : State} (h : s.getDefaultSubstate = some st) :
    ∃ nm, assocFind nm s.substates = some st := by
  obtain ⟨n, c, l⟩ := s
  simp only [State.getDefaultSubstate, State.context] at h
  match c with
  | none => simp at h
  | some ctx =>
    simp only at h
    match hd : ctx.defaultSubstate with
    | none => simp [hd] at h
    | some nm =>
      simp only [hd] at h
      by_cases he : nm = ""
      · simp [he] at h
      · simp only [he, if_neg] at h
        exact ⟨nm, by simpa [State.substates] using h⟩

/-- From a well-keyed node the names the cascade pushes resolve (size
induction). -/
theorem cascade_resolves_aux : ∀ n, ∀ s : State, sizeOf s < n → State.wfKeys s = true →
    (resolveFrom s (defaultCascade s).2).isOk = true := by
  intro n
  induction n with
  | zero => intro s h; omega
  | succ k ih =>
    intro s hs hw
    rw [defaultCascade]
    split
    · next st hd =>
      obtain ⟨nm, hnm⟩ := getDefaultSubstate_find hd
      obtain ⟨s1, c1, l1⟩ := s
      have hwf := wfKeysList_find l1 nm st (by simpa [State.wfKeys] using hw)
        (by simpa [State.substates] using hnm)
      simp only [resolveFrom, State.getSubstate, State.getName]
      rw [show (State.mk s1 c1 l1).substates = l1 from rfl, hwf.1,
        show assocFind nm l1 = some st from by simpa [State.substates] using hnm]
      exact ih st (by have := sizeOf_getDefaultSubstate hd; omega) hwf.2
    · simp [resolveFrom, Except.isOk, Except.toBool]

/-- From a well-keyed node the names the cascade pushes resolve. -/
theorem cascade_resolves {s : State} (hw : State.wfKeys s = true) :
    (resolveFrom s (defaultCascade s).2).isOk = true :=
  cascade_resolves_aux (sizeOf s + 1) s (by omega) hw



/-- Well-keyedness distributes over list append. -/
theorem wfKeysList_append : ∀ l1 l2 : List (String × State),
    wfKeysList (l1 ++ l2) = (wfKeysList l1 && wfKeysList l2) := by
  intro l1 l2
  induction l1 with
  | nil => simp [wfKeysList]
  | cons p rest ih =>
    obtain ⟨k, v⟩ := p
    simp [wfKeysList, ih, Bool.and_assoc]

/-- Replacing a found child by a well-keyed child with the matching key
keeps the list well-keyed. -/
theorem wfKeysList_replace : ∀ (l : List (String × State)) a child child',
    wfKeysList l = true → assocFind a l = some child →
    State.wfKeys child' = true → jsKey child'.name = a →
    wfKeysList (assocReplace a child' l) = true := by
  intro l a child child' hw hf hw' hn
  induction l with
  | nil => simp [assocFind] at hf
  | cons p rest ih =>
    obtain ⟨k, v⟩ := p
    simp only [wfKeysList, Bool.and_eq_true, beq_iff_eq] at hw
    by_cases hk : k = a
    · simp only [assocReplace, hk, if_pos rfl]
      simp [wfKeysList, hw.2, hw', hn, hk]
    · simp only [assocFind, hk, if_neg, ite_false] at hf
      simp only [assocReplace, hk, ite_false]
      simp [wfKeysList, hw.1.1, hw.1.2, ih hw.2 hf]

/-- The registration walk never changes the root's name. -/
theorem registerWalk_name : ∀ (anc : List String) (st : State) nm ctx st',
    registerWalk st anc nm ctx = .ok st' → st'.name = st.name := by
  intro anc
  induction anc with
  | nil =>
    intro st nm ctx st' h
    simp only [registerWalk, State.addSubstate] at h
    split at h
    · cases h
    · simp only [Except.ok.injEq] at h
      subst h
      rfl
  | cons a rest ih =>
    intro st nm ctx st' h
    simp only [registerWalk] at h
    cases hg : st.getSubstate (some a) with
    | error e =>
      simp only [hg] at h
      cases h
    | ok child =>
      simp only [hg] at h
      cases hw : registerWalk child rest nm ctx with
      | error e =>
        simp only [hw] at h
        cases h
      | ok child' =>
        simp only [hw, Except.ok.injEq] at h
        subst h
        rfl

/-- The registration walk keeps the tree well-keyed. -/
theorem wfKeys_registerWalk : ∀ (anc : List String) (st : State) nm ctx st',
    State.wfKeys st = true → registerWalk st anc nm ctx = .ok st' →
    State.wfKeys st' = true := by
  intro anc
  induction anc with
  | nil =>
    intro st nm ctx st' hw h
    simp only [registerWalk, State.addSubstate] at h
    split at h
    · cases h
    · simp only [Except.ok.injEq] at h
      subst h
      obtain ⟨n, c, l⟩ := st
      simp only [State.wfKeys, State.substates] at hw ⊢
      rw [wfKeysList_append]
      simp [hw, wfKeysList, State.name, State.wfKeys]
  | cons a rest ih =>
    intro st nm ctx st' hw h
    obtain ⟨n, c, l⟩ := st
    simp only [registerWalk, State.getSubstate, State.substates] at h
    cases hf : assocFind (jsKey (some a)) l with
    | none => simp [hf] at h
    | some child =>
      simp only [hf] at h
      cases hrw : registerWalk child rest nm ctx with
      | error e => simp [hrw] at h
      | ok child' =>
        simp only [hrw, Except.ok.injEq] at h
        subst h
        simp only [State.wfKeys, State.substates] at hw ⊢
        have hachild := wfKeysList_find l (jsKey (some a)) child hw hf
        have hwc' := ih child nm ctx child' hachild.2 hrw
        have hname := registerWalk_name rest child nm ctx child' hrw
        exact wfKeysList_replace l a child child' hw (by simpa [jsKey] using hf) hwc'
          (by rw [hname]; simpa [jsKey] using hachild.1)

/-- Appending entries never changes an already-successful lookup. -/
theorem assocFind_append_some : ∀ (l l2 : List (String × State)) q v,
    assocFind q l = some v → assocFind q (l ++ l2) = some v := by
  intro l l2 q v h
  induction l with
  | nil => simp [assocFind] at h
  | cons p rest ih =>
    obtain ⟨k, w⟩ := p
    by_cases hk : k = q
    · simp [assocFind, hk] at h ⊢
      exact h
    · simp [assocFind, hk] at h ⊢
      exact ih h

/-- The registration walk preserves the resolvability of every path
(the tree is append-only). -/
theorem registerWalk_resolve_ok : ∀ (anc : List String) (st : State) nm ctx st',
    registerWalk st anc nm ctx = .ok st' →
    ∀ q, (resolveFrom st q).isOk = true → (resolveFrom st' q).isOk = true := by
  intro anc
  induction anc with
  | nil =>
    intro st nm ctx st' h q hq
    simp only [registerWalk, State.addSubstate] at h
    split at h
    · cases h
    · simp only [Except.ok.injEq] at h
      subst h
      cases q with
      | nil => simp [resolveFrom, Except.isOk, Except.toBool]
      | cons x restq =>
        obtain ⟨n, c, l⟩ := st
        simp only [resolveFrom, State.getSubstate, State.substates] at hq ⊢
        cases hf : assocFind (jsKey x) l with
        | none => simp [hf, Except.isOk, Except.toBool] at hq
        | some v =>
          rw [hf] at hq
          rw [assocFind_append_some l _ (jsKey x) v hf]
          simpa using hq
  | cons a rest ih =>
    intro st nm ctx st' h q hq
    obtain ⟨n, c, l⟩ := st
    simp only [registerWalk, State.getSubstate, State.substates] at h
    cases hf : assocFind (jsKey (some a)) l with
    | none => simp [hf] at h
    | some child =>
      simp only [hf] at h
      cases hrw : registerWalk child rest nm ctx with
      | error e => simp [hrw] at h
      | ok child' =>
        simp only [hrw, Except.ok.injEq] at h
        subst h
        cases q with
        | nil => simp [resolveFrom, Except.isOk, Except.toBool]
        | cons x restq =>
          simp only [resolveFrom, State.getSubstate, State.substates] at hq ⊢
          by_cases hx : jsKey x = a
          · have hfx : assocFind (jsKey x) l = some child := by rw [hx]; simpa [jsKey] using hf
            rw [hfx] at hq
            rw [hx, assocFind_replace_self l a child child' (by simpa [jsKey] using hf)]
            simp only at hq ⊢
            exact ih child nm ctx child' hrw restq hq
          · rw [assocFind_replace_ne l a (jsKey x) child' hx]
            cases hfx : assocFind (jsKey x) l with
            | none => simp [hfx, Except.isOk, Except.toBool] at hq
            | some v =>
              rw [hfx] at hq
              simpa using hq



/-- Resolution of a concatenated path is sequential resolution. -/
theorem resolveFrom_append : ∀ (q1 q2 : List JSName) (st : State),
    resolveFrom st (q1 ++ q2) =
      match resolveFrom st q1 with
      | .error e => .error e
      | .ok s1 => resolveFrom s1 q2 := by
  intro q1
  induction q1 with
  | nil => intro q2 st; simp [resolveFrom]
  | cons n rest ih =>
    intro q2 st
    simp only [List.cons_append, resolveFrom]
    cases hg : st.getSubstate n with
    | error e => simp
    | ok child => simp [ih]

/-- `changeState` never modifies the tree. -/
theorem changeState_world : ∀ (m : StateManager) (s : String) (fa : Bool),
    (changeState m s fa).1.worldState = m.worldState := by
  intro m s fa
  simp only [changeState]
  cases hc : collectExitStates m.worldState m.currentStateDescr 0
      (computeChangeLevel ((stateDescrFromStateStr s).map some) m.currentStateDescr) fa with
  | error e => rfl
  | ok exs =>
    rcases hew : enterWalk m.worldState ((stateDescrFromStateStr s).map some) 0
      (computeChangeLevel ((stateDescrFromStateStr s).map some) m.currentStateDescr) fa
      with ⟨evs, res⟩
    cases res with
    | error e => rfl
    | ok leaf => rfl

/-- Decomposition of a successful `registerState` call. -/
theorem registerState_ok_inv {m m' : StateManager} {s : String} {c : Option Ctx}
    (h : registerState m s c = (m', none)) :
    ∃ w', registerWalk m.worldState (stateDescrFromStateStr s).dropLast
        (stateDescrFromStateStr s).getLast? c = .ok w' ∧
      m' = .mk w' m.currentStateDescr := by
  simp only [registerState] at h
  cases hw : registerWalk m.worldState (stateDescrFromStateStr s).dropLast
      (stateDescrFromStateStr s).getLast? c with
  | error e =>
    rw [hw] at h
    simp at h
  | ok w' =>
    rw [hw] at h
    simp only [Prod.mk.injEq] at h
    exact ⟨w', rfl, h.1.symm⟩

/-- Decomposition of a successful `changeState` call. -/
theorem changeState_ok_inv {m m' : StateManager} {s : String} {fa : Bool} {tr : List Event}
    (h : changeState m s fa = (m', tr, none)) :
    ∃ leaf, resolveFrom m.worldState ((stateDescrFromStateStr s).map some) = .ok leaf ∧
      m' = .mk m.worldState
        ((stateDescrFromStateStr s).map some ++ (defaultCascade leaf).2) := by
  simp only [changeState] at h
  cases hc : collectExitStates m.worldState m.currentStateDescr 0
      (computeChangeLevel ((stateDescrFromStateStr s).map some) m.currentStateDescr) fa with
  | error e =>
    rw [hc] at h
    simp at h
  | ok exs =>
    rw [hc] at h
    rcases hew : enterWalk m.worldState ((stateDescrFromStateStr s).map some) 0
      (computeChangeLevel ((stateDescrFromStateStr s).map some) m.currentStateDescr) fa
      with ⟨evs, res⟩
    rw [hew] at h
    have hsnd := enterWalk_snd ((stateDescrFromStateStr s).map some) m.worldState 0
      (computeChangeLevel ((stateDescrFromStateStr s).map some) m.currentStateDescr) fa
    rw [hew] at hsnd
    cases res with
    | error e => simp at h
    | ok leaf =>
      simp only [Prod.mk.injEq] at h
      exact ⟨leaf, hsnd.symm, h.1.symm⟩

/-- Managers reachable from `new StateManager()` by successful
`registerState` and `changeState` calls. -/
inductive Reachable : StateManager → Prop where
  | init : Reachable initialManager
  | register (m : StateManager) (s : String) (c : Option Ctx) (m' : StateManager) :
      Reachable m → registerState m s c = (m', none) → Reachable m'
  | change (m : StateManager) (s : String) (fa : Bool) (m' : StateManager) (tr : List Event) :
      Reachable m → changeState m s fa = (m', tr, none) → Reachable m'

/-- Reachable managers have a well-keyed tree and a resolvable current
path. -/
theorem reachable_inv : ∀ m : StateManager, Reachable m →
    State.wfKeys m.worldState = true ∧
    (resolveFrom m.worldState m.currentStateDescr).isOk = true := by
  intro m h
  induction h with
  | init => exact ⟨rfl, rfl⟩
  | register m1 s c m' hr heq ih =>
    obtain ⟨w', hw, hm'⟩ := registerState_ok_inv heq
    subst hm'
    exact ⟨wfKeys_registerWalk _ _ _ _ _ ih.1 hw,
      registerWalk_resolve_ok _ _ _ _ _ hw _ ih.2⟩
  | change m1 s fa m' tr hr heq ih =>
    obtain ⟨leaf, hleaf, hm'⟩ := changeState_ok_inv heq
    subst hm'
    refine ⟨ih.1, ?_⟩
    simp only
    rw [resolveFrom_append, hleaf]
    exact cascade_resolves (wfKeys_resolveFrom _ _ _ ih.1 hleaf)

/-- C6: in every manager reachable from the initial one by successful
`registerState` and `changeState` calls, `currentPath` resolves segment
by segment from the world root; moreover the tree is append-only in the
sense that `registerState` preserves the resolvability of every path and
`changeState` never modifies the tree at all. -/
theorem claim6_currentPath_resolvable :
    (∀ m : StateManager, Reachable m →
      (resolveFrom m.worldState m.currentStateDescr).isOk = true) ∧
    (∀ (m : StateManager) (q : List JSName) (s : String) (c : Option Ctx),
      (resolveFrom m.worldState q).isOk = true →
      (resolveFrom (registerState m s c).1.worldState q).isOk = true) ∧
    (∀ (m : StateManager) (q : List JSName) (s : String) (fa : Bool),
      (resolveFrom (changeState m s fa).1.worldState q).isOk
        = (resolveFrom m.worldState q).isOk) := by
  refine ⟨fun m h => (reachable_inv m h).2, ?_, ?_⟩
  · intro m q s c hq
    simp only [registerState]
    cases hw : registerWalk m.worldState (stateDescrFromStateStr s).dropLast
        (stateDescrFromStateStr s).getLast? c with
    | error e => exact hq
    | ok w' => exact registerWalk_resolve_ok _ _ _ _ _ hw q hq
  · intro m q s fa
    rw [changeState_world]

/-- C6 witness: after registering `a` and transitioning to it, the
current path of the resulting reachable manager resolves. -/
theorem claim6_currentPath_resolvable_witness :
    (resolveFrom (changeState (registerState initialManager "a" none).1 "a" false).1.worldState
      (changeState (registerState initialManager "a" none).1 "a" false).1.currentStateDescr).isOk
      = true := by
  refine claim6_currentPath_resolvable.1 _ (Reachable.change
    (registerState initialManager "a" none).1 "a" false
    (changeState (registerState initialManager "a" none).1 "a" false).1
    (changeState (registerState initialManager "a" none).1 "a" false).2.1
    (Reachable.register initialManager "a" none (registerState initialManager "a" none).1
      Reachable.init (by rfl)) ?_)
  simp [changeState, registerState, registerWalk, initialManager, stateDescrFromStateStr,
    splitDot, splitDotAux, State.addSubstate, State.getSubstate, assocFind, assocReplace, jsKey,
    computeChangeLevel, collectExitStates, enterWalk, defaultCascade, State.getDefaultSubstate,
    State.enterEvents, State.exitEvents, State.name, State.context, State.substates,
    State.getName]

end SM
